import Mathlib

/-!
Verification of the matching-and-scoring core of `src/reddit_analyzer.py`
(class `RedditCommentAnalyzer`), shallowly embedded in Lean.

Text is modelled as a list of Unicode code points (`List ℕ`); Python's
`str.lower` is modelled per code point on the ASCII range, which covers
every phrase of the shipped vocabulary and every example of the spec.
Python's built-in `round` (round-half-to-even) is modelled by `pyRound`.
The scorer is embedded twice: `calculate_gen_z_score` evaluates the
density `(s / w) * 200` exactly over ℚ, which suffices for every
tie-agnostic property (range, rounding within 1/2, monotonicity, the
zero-word branch); `calculate_gen_z_score_float` is the bit-exact
binary64 model, built from `fl` (round a rational to the nearest
53-bit float, ties to even): CPython's `int / int` produces the
correctly rounded double of the exact quotient, float `* 200` is
correctly rounded, and `round` applies half-to-even to the double's
exact value.  The two models agree except near exact-half densities,
where only the float model reproduces the code (proved at
`score_float_23_80` and `score_float_109_400`).
Python dicts and `collections.Counter` are modelled as association lists
kept in insertion order, with dict assignment (`dictInsert`) and
`Counter.update` (`counterUpdate`) mirroring dict semantics; `str.count`
(non-overlapping left-to-right substring scan, an empty needle matching
`len + 1` times) is modelled by `pyCount`; a record whose analysis raises
an exception is modelled as `none` in `processRecord`, matching the
per-comment `try/except: continue` of `analyze_subreddit_comments`.
-/

namespace RedditSlang

/-- Python's built-in `round` on a rational: nearest integer,
ties to the even integer (banker's rounding). -/
def pyRound (q : ℚ) : ℤ :=
  if q - ⌊q⌋ < 1/2 then ⌊q⌋
  else if 1/2 < q - ⌊q⌋ then ⌊q⌋ + 1
  else if ⌊q⌋ % 2 = 0 then ⌊q⌋ else ⌊q⌋ + 1

/-- `RedditCommentAnalyzer.calculate_gen_z_score`: 0 on a zero-word corpus,
otherwise `min(100, round((total_keywords / total_words) * 200))`, with the
density evaluated exactly over ℚ.  The source computes the density in
binary64 doubles; this exact model agrees with the code on every property
that does not pin the direction of an exact-half tie (see
`calculate_gen_z_score_float` for the bit-exact model). -/
def calculate_gen_z_score (total_keywords total_words : ℕ) : ℤ :=
  if total_words = 0 then 0
  else min 100 (pyRound ((total_keywords : ℚ) / (total_words : ℚ) * 200))

/-- Round a rational to the nearest IEEE binary64 value (53-bit mantissa,
round-to-nearest, ties to even), as an exact rational; overflow and
subnormals are out of the exercised range and not modelled. -/
def fl (q : ℚ) : ℚ :=
  if q = 0 then 0
  else ((pyRound (q / (2 : ℚ) ^ (Int.log 2 |q| - 52)) : ℤ) : ℚ) * (2 : ℚ) ^ (Int.log 2 |q| - 52)

/-- Bit-exact binary64 model of `calculate_gen_z_score`: CPython's
`int / int` yields the correctly rounded double of the exact quotient,
the float multiplication by 200 is correctly rounded, and `round` applies
half-to-even to the exact value of the resulting double. -/
def calculate_gen_z_score_float (total_keywords total_words : ℕ) : ℤ :=
  if total_words = 0 then 0
  else min 100 (pyRound (fl (fl ((total_keywords : ℚ) / (total_words : ℚ)) * 200)))

/-- A text is a list of Unicode code points. -/
abbrev Text := List ℕ

/-- Code points of a string literal. -/
def codes (s : String) : Text := s.data.map Char.toNat

/-- ASCII lowercasing of one code point (model of `str.lower` per character). -/
def lowerChar (n : ℕ) : ℕ := if 65 ≤ n ∧ n ≤ 90 then n + 32 else n

/-- `text.lower()`. -/
def pyLower (t : Text) : Text := t.map lowerChar

/-- Scan for `str.count`: walk the text left to right; `skip > 0` means the
position lies inside the previously matched span and is not tested, so that
matches never overlap and scanning resumes right after a matched span. -/
def countOccGo (sub : Text) : ℕ → Text → ℕ
  | _, [] => 0
  | 0, c :: t =>
      if sub.isPrefixOf (c :: t) then 1 + countOccGo sub (sub.length - 1) t
      else countOccGo sub 0 t
  | skip+1, _ :: t => countOccGo sub skip t

/-- Python `s.count(sub)`: non-overlapping substring occurrences; an empty
needle yields `len(s) + 1`. -/
def pyCount (s sub : Text) : ℕ :=
  if sub = [] then s.length + 1 else countOccGo sub 0 s

/-- Python dict assignment `d[k] = v`: replace the value if the key is
present, else append the pair (dicts preserve insertion order). -/
def dictInsert (d : List (Text × ℕ)) (k : Text) (v : ℕ) : List (Text × ℕ) :=
  if d.any (fun p => p.1 == k) then d.map (fun p => if p.1 = k then (k, v) else p)
  else d ++ [(k, v)]

/-- One iteration of the keyword loop of `analyze_comment`: count the
lowercased keyword in the (already lowercased) text and record it when
the count is positive. -/
def analyzeStep (text : Text) (d : List (Text × ℕ)) (keyword : Text) : List (Text × ℕ) :=
  if 0 < pyCount text (pyLower keyword) then dictInsert d keyword (pyCount text (pyLower keyword))
  else d

/-- `RedditCommentAnalyzer.analyze_comment`: lowercase the comment once, then
for each keyword of the vocabulary record its positive occurrence count. -/
def analyze_comment (kws : List Text) (comment_text : Text) : List (Text × ℕ) :=
  List.foldl (analyzeStep (pyLower comment_text)) [] kws

/-- The shipped slang vocabulary of `RedditCommentAnalyzer.__init__`,
in source order, duplicates included. -/
def keywordStrings : List String :=
  ["rizz", "gyatt", "fr", "fr fr", "frfr", "no cap", "cap", "bussin", "bussin bussin", "slay",
   "slayed", "slaying", "based", "mid", "valid", "invalid", "taking Ls", "taking Ws",
   "common L", "common W", "rare L", "rare W", "massive L", "massive W", "huge L",
   "huge W", "bruh", "bruhhh", "skull", "💀", "crying", "im dead", "i\x27m dead", "ded",
   "wheeze", "screaming", "down bad", "down horrendous", "touch grass", "grass touched",
   "unspoken rizz", "no rizz", "negative rizz", "infinite rizz", "ngl", "idk", "idc",
   "tbh", "imo", "imho", "istg", "iykyk", "iirc", "nvm", "tbf", "ratio", "counter ratio",
   "ratioed", "rent free", "living rent free", "main character", "npc", "caught in 4k",
   "in 4k", "pov", "literally me", "lowkey", "highkey", "hits different",
   "hitting different", "real", "so real", "peak", "bottom tier", "top tier", "no shot",
   "ain\x27t no way", "deadass", "on god", "ong", "sheesh", "sheeesh", "skibidi", "ohio",
   "real ohio moment", "chad", "sigma", "alpha", "beta", "karen", "boomer", "zoomer",
   "copium", "hopium", "propaganda", "fam", "bestie", "bestie moment", "material", "tea",
   "spill the tea", "pressed", "salty", "sus", "sus af", "goated", "actually goated",
   "cracked", "built different", "different breed", "trash", "garbage", "ain\x27t it",
   "no printer", "straight fax", "heard you", "say less", "bet", "facts", "big facts",
   "rizz god", "sleeping on", "giving", "era", "vibe check", "understood the assignment",
   "passes the vibe check", "failed the vibe check", "clapped", "bozo", "deadass",
   "finna", "hits", "period", "periodt", "purr", "respectfully", "throwing shade",
   "yeet", "hits", "smoking that pack", "caught in hd", "ate", "devious lick", "til",
   "afaik", "goat", "rn", "mf", "fs", "w rizz", "big w", "major l", "huge l", "tfw",
   "mfw", "me when", "mood", "based and redpilled", "cope", "drip", "clean", "fire",
   "gas", "slaps", "caught lacking", "on god", "fr on god", "no printer just fax",
   "sadge", "poggers", "thicc", "kinda", "cringe", "woke", "toxic", "main character energy"]

set_option maxRecDepth 10000 in
/-- The shipped vocabulary as code-point lists. -/
def keywords : List Text := keywordStrings.map codes

/-- The keys of an association list, in order. -/
def keys (d : List (Text × ℕ)) : List Text := d.map Prod.fst

/-- Invariant of the dict built by `analyze_comment`: every stored value is
the positive occurrence count of its key in `text`. -/
def consistent (text : Text) (d : List (Text × ℕ)) : Prop :=
  ∀ p ∈ d, p.2 = pyCount text (pyLower p.1) ∧ 0 < p.2

/-- Remove later duplicates from a list, keeping first occurrences in order. -/
def dedupFirst : List Text → List Text
  | [] => []
  | k :: t => k :: dedupFirst (t.filter (fun x => x != k))
  termination_by l => l.length
  decreasing_by
    simp only [List.length_cons]
    have := List.length_filter_le (fun x => x != k) t
    omega

/-- The corpus accumulator of `analyze_subreddit_comments`. -/
structure Totals where
  total_words : ℕ
  total_slang : ℕ
  keyword_counts : List (Text × ℕ)
  comments_with_slang : ℕ
  processed_comments : ℕ
deriving DecidableEq

/-- `Counter` addition for one key: add `v` to the key's count, missing keys
count as 0 and are appended. -/
def counterAdd (d : List (Text × ℕ)) (k : Text) (v : ℕ) : List (Text × ℕ) :=
  if d.any (fun p => p.1 == k) then d.map (fun p => if p.1 = k then (p.1, p.2 + v) else p)
  else d ++ [(k, v)]

/-- `Counter.update(mapping)`: fold `counterAdd` over the mapping's items. -/
def counterUpdate (d : List (Text × ℕ)) (ck : List (Text × ℕ)) : List (Text × ℕ) :=
  ck.foldl (fun acc p => counterAdd acc p.1 p.2) d

/-- ASCII whitespace, the separators of `str.split()`. -/
def isWs (n : ℕ) : Bool := n == 32 || n == 9 || n == 10 || n == 11 || n == 12 || n == 13

/-- Scanner for `str.split()`: `cur` holds the current word reversed. -/
def splitWsGo (cur : Text) : Text → List Text
  | [] => if cur = [] then [] else [cur.reverse]
  | c :: t =>
    if isWs c then
      if cur = [] then splitWsGo [] t else cur.reverse :: splitWsGo [] t
    else splitWsGo (c :: cur) t

/-- Python `s.split()`: split on whitespace runs, dropping empty words. -/
def splitWs (t : Text) : List Text := splitWsGo [] t

/-- The zero accumulator initialised at the top of the comment loop. -/
def initTotals : Totals := ⟨0, 0, [], 0, 0⟩

/-- One iteration of the comment loop of `analyze_subreddit_comments`.
`none` is a record whose analysis raises: the `except` branch prints and
continues, leaving the accumulator untouched.  A `[deleted]`/`[removed]`
body is skipped by the `continue` in the `try` block.  Otherwise the word
count is added, slang statistics are merged when any keyword matched, and
the processed-comment counter is incremented. -/
def processRecord (kws : List Text) (t : Totals) (r : Option Text) : Totals :=
  match r with
  | none => t
  | some body =>
    if body = codes "[deleted]" ∨ body = codes "[removed]" then t
    else
      let comment_keywords := analyze_comment kws body
      let words_in_comment := (splitWs body).length
      let t1 : Totals := { t with total_words := t.total_words + words_in_comment }
      let t2 : Totals :=
        if comment_keywords = [] then t1
        else { t1 with
          comments_with_slang := t1.comments_with_slang + 1,
          keyword_counts := counterUpdate t1.keyword_counts comment_keywords,
          total_slang := t1.total_slang + (comment_keywords.map Prod.snd).sum }
      { t2 with processed_comments := t2.processed_comments + 1 }

/-- The accumulation loop of `analyze_subreddit_comments` over a finite
record stream. -/
def analyze_subreddit_comments (kws : List Text) (records : List (Option Text)) : Totals :=
  List.foldl (processRecord kws) initTotals records

theorem floor_le_pyRound (q : ℚ) : ⌊q⌋ ≤ pyRound q := by
  unfold pyRound
  split_ifs <;> omega

theorem pyRound_le_floor_add_one (q : ℚ) : pyRound q ≤ ⌊q⌋ + 1 := by
  unfold pyRound
  split_ifs <;> omega

theorem pyRound_nearest (q : ℚ) : |(pyRound q : ℚ) - q| ≤ 1/2 := by
  have h1 : (⌊q⌋ : ℚ) ≤ q := Int.floor_le q
  have h2 : q < (⌊q⌋ : ℚ) + 1 := Int.lt_floor_add_one q
  rw [abs_le]
  unfold pyRound
  split_ifs with ha hb hc <;> push_cast <;> constructor <;> linarith

theorem pyRound_nonneg (q : ℚ) (h : 0 ≤ q) : 0 ≤ pyRound q := by
  have h0 : (0 : ℤ) ≤ ⌊q⌋ := Int.le_floor.mpr (by exact_mod_cast h)
  calc (0 : ℤ) ≤ ⌊q⌋ := h0
    _ ≤ pyRound q := floor_le_pyRound q

theorem pyRound_mono {p q : ℚ} (hpq : p ≤ q) : pyRound p ≤ pyRound q := by
  have hf : ⌊p⌋ ≤ ⌊q⌋ := Int.floor_le_floor hpq
  rcases lt_or_eq_of_le hf with hlt | heq
  · calc pyRound p ≤ ⌊p⌋ + 1 := pyRound_le_floor_add_one p
      _ ≤ ⌊q⌋ := by omega
      _ ≤ pyRound q := floor_le_pyRound q
  · have hfp : (⌊p⌋ : ℚ) ≤ p := Int.floor_le p
    have hfq : (⌊q⌋ : ℚ) ≤ q := Int.floor_le q
    have hcast : ((⌊p⌋ : ℤ) : ℚ) = ((⌊q⌋ : ℤ) : ℚ) := by rw [heq]
    unfold pyRound
    split_ifs with h1 h2 h3 h4 h5 h6 h7 h8 h9 h10 <;>
      first
        | omega
        | (exfalso; rw [heq] at *; linarith)

theorem log2_eq (q : ℚ) (e : ℤ) (hq : 0 < q)
    (h1 : (2 : ℚ) ^ e ≤ q) (h2 : q < (2 : ℚ) ^ (e + 1)) : Int.log 2 q = e := by
  have hb : 1 < 2 := one_lt_two
  have hle : e ≤ Int.log 2 q := by
    refine (Int.zpow_le_iff_le_log hb hq).mp ?_
    push_cast
    exact h1
  have hlt : Int.log 2 q < e + 1 := by
    refine (Int.lt_zpow_iff_log_lt hb hq).mp ?_
    push_cast
    exact h2
  omega

theorem fl_eval (q : ℚ) (e m : ℤ) (hq : 0 < q)
    (h1 : (2 : ℚ) ^ e ≤ q) (h2 : q < (2 : ℚ) ^ (e + 1))
    (hm : pyRound (q / (2 : ℚ) ^ (e - 52)) = m) :
    fl q = (m : ℚ) * (2 : ℚ) ^ (e - 52) := by
  have habs : |q| = q := abs_of_pos hq
  have hlog : Int.log 2 |q| = e := by
    rw [habs]
    exact log2_eq q e hq h1 h2
  unfold fl
  rw [if_neg (ne_of_gt hq), hlog, hm]

theorem fl_1_400 : fl ((1 : ℚ)/400) = 5764607523034235 / 2 ^ 61 := by
  have h := fl_eval (1/400) (-9) 5764607523034235 (by norm_num) (by norm_num) (by norm_num)
    (by norm_num [pyRound])
  rw [h]
  norm_num

theorem fl_1_400_x200 : fl ((5764607523034235 / 2 ^ 61 : ℚ) * 200) = 1/2 := by
  have h := fl_eval ((5764607523034235 / 2 ^ 61 : ℚ) * 200) (-1) 4503599627370496
    (by norm_num) (by norm_num) (by norm_num) (by norm_num [pyRound])
  rw [h]
  norm_num

theorem fl_5_400 : fl ((5 : ℚ)/400) = 7205759403792794 / 2 ^ 59 := by
  have h := fl_eval ((5 : ℚ)/400) (-7) 7205759403792794 (by norm_num) (by norm_num) (by norm_num)
    (by norm_num [pyRound])
  rw [h]
  norm_num

theorem fl_5_400_x200 : fl ((7205759403792794 / 2 ^ 59 : ℚ) * 200) = 5/2 := by
  have h := fl_eval ((7205759403792794 / 2 ^ 59 : ℚ) * 200) 1 5629499534213120
    (by norm_num) (by norm_num) (by norm_num) (by norm_num [pyRound])
  rw [h]
  norm_num

theorem fl_23_80 : fl ((23 : ℚ)/80) = 5179139571476070 / 2 ^ 54 := by
  have h := fl_eval ((23 : ℚ)/80) (-2) 5179139571476070 (by norm_num) (by norm_num) (by norm_num)
    (by norm_num [pyRound])
  rw [h]
  norm_num

theorem fl_23_80_x200 :
    fl ((5179139571476070 / 2 ^ 54 : ℚ) * 200) = 8092405580431359 / 2 ^ 47 := by
  have h := fl_eval ((5179139571476070 / 2 ^ 54 : ℚ) * 200) 5 8092405580431359
    (by norm_num) (by norm_num) (by norm_num) (by norm_num [pyRound])
  rw [h]
  norm_num

theorem fl_109_400 : fl ((109 : ℚ)/400) = 4908923593833841 / 2 ^ 54 := by
  have h := fl_eval ((109 : ℚ)/400) (-2) 4908923593833841 (by norm_num) (by norm_num) (by norm_num)
    (by norm_num [pyRound])
  rw [h]
  norm_num

theorem fl_109_400_x200 :
    fl ((4908923593833841 / 2 ^ 54 : ℚ) * 200) = 7670193115365377 / 2 ^ 47 := by
  have h := fl_eval ((4908923593833841 / 2 ^ 54 : ℚ) * 200) 5 7670193115365377
    (by norm_num) (by norm_num) (by norm_num) (by norm_num [pyRound])
  rw [h]
  norm_num

theorem score_float_1_400 : calculate_gen_z_score_float 1 400 = 0 := by
  unfold calculate_gen_z_score_float
  rw [if_neg (by norm_num)]
  have hc : ((1 : ℕ) : ℚ) / ((400 : ℕ) : ℚ) = (1 : ℚ)/400 := by norm_num
  rw [hc, fl_1_400, fl_1_400_x200]
  norm_num [pyRound]

theorem score_float_5_400 : calculate_gen_z_score_float 5 400 = 2 := by
  unfold calculate_gen_z_score_float
  rw [if_neg (by norm_num)]
  have hc : ((5 : ℕ) : ℚ) / ((400 : ℕ) : ℚ) = (5 : ℚ)/400 := by norm_num
  rw [hc, fl_5_400, fl_5_400_x200]
  norm_num [pyRound]

/-- At `(23, 80)` the exact density is 57.5 but the binary64 product is
slightly below it, so the code returns 57 while exact half-to-even rounding
would give 58: no general tie rule on the exact density holds of the code. -/
theorem score_float_23_80 : calculate_gen_z_score_float 23 80 = 57 ∧
    calculate_gen_z_score 23 80 = 58 := by
  constructor
  · unfold calculate_gen_z_score_float
    rw [if_neg (by norm_num)]
    have hc : ((23 : ℕ) : ℚ) / ((80 : ℕ) : ℚ) = (23 : ℚ)/80 := by norm_num
    rw [hc, fl_23_80, fl_23_80_x200]
    norm_num [pyRound]
  · norm_num [calculate_gen_z_score, pyRound]

/-- At `(109, 400)` the exact density is 54.5 but the binary64 product is
slightly above it, so the code returns 55 while exact half-to-even rounding
would give 54. -/
theorem score_float_109_400 : calculate_gen_z_score_float 109 400 = 55 ∧
    calculate_gen_z_score 109 400 = 54 := by
  constructor
  · unfold calculate_gen_z_score_float
    rw [if_neg (by norm_num)]
    have hc : ((109 : ℕ) : ℚ) / ((400 : ℕ) : ℚ) = (109 : ℚ)/400 := by norm_num
    rw [hc, fl_109_400, fl_109_400_x200]
    norm_num [pyRound]
  · norm_num [calculate_gen_z_score, pyRound]

theorem any_eq_mem_keys (d : List (Text × ℕ)) (k : Text) :
    (d.any fun p => p.1 == k) = true ↔ k ∈ keys d := by
  simp only [List.any_eq_true, beq_iff_eq, keys, List.mem_map]

theorem mem_dictInsert (d : List (Text × ℕ)) (k : Text) (v : ℕ) :
    ∀ p ∈ dictInsert d k v, p ∈ d ∨ p = (k, v) := by
  intro p hp
  unfold dictInsert at hp
  split at hp
  · rcases List.mem_map.mp hp with ⟨q, hq, hq'⟩
    by_cases h : q.1 = k
    · rw [if_pos h] at hq'
      exact Or.inr hq'.symm
    · rw [if_neg h] at hq'
      exact Or.inl (hq' ▸ hq)
  · rcases List.mem_append.mp hp with h | h
    · exact Or.inl h
    · exact Or.inr (by simpa using h)

theorem mem_analyzeStep (text : Text) (d : List (Text × ℕ)) (k : Text) :
    ∀ p ∈ analyzeStep text d k,
      p ∈ d ∨ (p = (k, pyCount text (pyLower k)) ∧ 0 < pyCount text (pyLower k)) := by
  intro p hp
  unfold analyzeStep at hp
  split at hp
  · rcases mem_dictInsert _ _ _ p hp with h | h
    · exact Or.inl h
    · exact Or.inr ⟨h, by assumption⟩
  · exact Or.inl hp

theorem mem_foldl_analyzeStep (text : Text) (kws : List Text) :
    ∀ (d : List (Text × ℕ)) p, p ∈ List.foldl (analyzeStep text) d kws →
      p ∈ d ∨ (p.1 ∈ kws ∧ p.2 = pyCount text (pyLower p.1) ∧ 0 < p.2) := by
  induction kws with
  | nil => intro d p hp; exact Or.inl hp
  | cons k t ih =>
    intro d p hp
    rw [List.foldl_cons] at hp
    rcases ih (analyzeStep text d k) p hp with h | h
    · rcases mem_analyzeStep text d k p h with h' | ⟨rfl, hc⟩
      · exact Or.inl h'
      · exact Or.inr ⟨List.mem_cons_self _ _, rfl, hc⟩
    · exact Or.inr ⟨List.mem_cons_of_mem _ h.1, h.2⟩

theorem keys_dictInsert (d : List (Text × ℕ)) (k : Text) (v : ℕ) :
    keys (dictInsert d k v) =
      if k ∈ keys d then keys d else keys d ++ [k] := by
  unfold dictInsert
  by_cases h : k ∈ keys d
  · rw [if_pos ((any_eq_mem_keys d k).mpr h), if_pos h]
    unfold keys
    rw [List.map_map]
    refine List.map_congr_left ?_
    intro q hq
    by_cases hqk : q.1 = k
    · simp [hqk]
    · simp [hqk]
  · rw [if_neg (fun hc => h ((any_eq_mem_keys d k).mp hc)), if_neg h]
    unfold keys
    rw [List.map_append]
    rfl

theorem mem_keys_iff (d : List (Text × ℕ)) (k : Text) :
    k ∈ keys d ↔ ∃ v, (k, v) ∈ d := by
  unfold keys
  rw [List.mem_map]
  constructor
  · rintro ⟨q, hq, rfl⟩
    exact ⟨q.2, by rwa [Prod.mk.eta]⟩
  · rintro ⟨v, hv⟩
    exact ⟨(k, v), hv, rfl⟩

theorem consistent_analyzeStep (text : Text) (d : List (Text × ℕ)) (k : Text)
    (hd : consistent text d) : consistent text (analyzeStep text d k) := by
  intro p hp
  rcases mem_analyzeStep text d k p hp with h | ⟨rfl, hc⟩
  · exact hd p h
  · exact ⟨rfl, hc⟩

theorem consistent_foldl (text : Text) (kws : List Text) :
    ∀ d, consistent text d → consistent text (List.foldl (analyzeStep text) d kws) := by
  induction kws with
  | nil => intro d hd; exact hd
  | cons k t ih =>
    intro d hd
    rw [List.foldl_cons]
    exact ih _ (consistent_analyzeStep text d k hd)

theorem keys_mono_analyzeStep (text : Text) (d : List (Text × ℕ)) (k k' : Text)
    (h : k' ∈ keys d) : k' ∈ keys (analyzeStep text d k) := by
  unfold analyzeStep
  split
  · rw [keys_dictInsert]
    split
    · exact h
    · exact List.mem_append_left _ h
  · exact h

theorem self_mem_keys_analyzeStep (text : Text) (d : List (Text × ℕ)) (k : Text)
    (hc : 0 < pyCount text (pyLower k)) : k ∈ keys (analyzeStep text d k) := by
  unfold analyzeStep
  rw [if_pos hc, keys_dictInsert]
  split
  · assumption
  · exact List.mem_append_right _ (List.mem_singleton.mpr rfl)

theorem keys_mono_foldl (text : Text) (kws : List Text) :
    ∀ d k', k' ∈ keys d → k' ∈ keys (List.foldl (analyzeStep text) d kws) := by
  induction kws with
  | nil => intro d k' h; exact h
  | cons k t ih =>
    intro d k' h
    rw [List.foldl_cons]
    exact ih _ k' (keys_mono_analyzeStep text d k k' h)

theorem mem_keys_foldl_of_mem (text : Text) (kws : List Text) :
    ∀ d k, k ∈ kws → 0 < pyCount text (pyLower k) →
      k ∈ keys (List.foldl (analyzeStep text) d kws) := by
  induction kws with
  | nil => intro d k h; exact absurd h (List.not_mem_nil k)
  | cons x t ih =>
    intro d k h hc
    rw [List.foldl_cons]
    rcases List.mem_cons.mp h with rfl | h
    · exact keys_mono_foldl text t _ k (self_mem_keys_analyzeStep text d k hc)
    · exact ih _ k h hc

theorem consistent_mem_of_keys (text : Text) (d : List (Text × ℕ))
    (hd : consistent text d) (k : Text) (h : k ∈ keys d) :
    (k, pyCount text (pyLower k)) ∈ d := by
  rcases (mem_keys_iff d k).mp h with ⟨v, hv⟩
  have hv2 : v = pyCount text (pyLower k) := (hd (k, v) hv).1
  rw [← hv2]
  exact hv

theorem analyzeStep_noop (text : Text) (d : List (Text × ℕ)) (k : Text)
    (hd : consistent text d)
    (h : pyCount text (pyLower k) = 0 ∨ k ∈ keys d) :
    analyzeStep text d k = d := by
  unfold analyzeStep
  rcases h with h | h
  · rw [if_neg (by omega)]
  · split
    · unfold dictInsert
      rw [if_pos ((any_eq_mem_keys d k).mpr h)]
      refine Eq.trans (List.map_congr_left ?_) (List.map_id d)
      intro q hq
      by_cases hqk : q.1 = k
      · rw [if_pos hqk]
        have h2 : q.2 = pyCount text (pyLower q.1) := (hd q hq).1
        rw [← hqk, ← h2, Prod.mk.eta]
        rfl
      · rw [if_neg hqk]
        rfl
    · rfl

theorem nodup_keys_analyzeStep (text : Text) (d : List (Text × ℕ)) (k : Text)
    (hd : (keys d).Nodup) : (keys (analyzeStep text d k)).Nodup := by
  unfold analyzeStep
  split
  · rw [keys_dictInsert]
    split
    · exact hd
    · rename_i hmem
      rw [List.nodup_append]
      exact ⟨hd, List.nodup_singleton k, by simpa using hmem⟩
  · exact hd

theorem nodup_keys_foldl (text : Text) (kws : List Text) :
    ∀ d, (keys d).Nodup → (keys (List.foldl (analyzeStep text) d kws)).Nodup := by
  induction kws with
  | nil => intro d hd; exact hd
  | cons k t ih =>
    intro d hd
    rw [List.foldl_cons]
    exact ih _ (nodup_keys_analyzeStep text d k hd)

theorem foldl_filter_ne (text k : Text) :
    ∀ (kws : List Text) (d : List (Text × ℕ)), consistent text d →
      (pyCount text (pyLower k) = 0 ∨ k ∈ keys d) →
      List.foldl (analyzeStep text) d kws =
        List.foldl (analyzeStep text) d (kws.filter (fun x => x != k)) := by
  intro kws
  induction kws with
  | nil => intro d _ _; rfl
  | cons x t ih =>
    intro d hd hk
    by_cases hx : x = k
    · subst hx
      have hstep : analyzeStep text d x = d := analyzeStep_noop text d x hd hk
      rw [List.foldl_cons, hstep]
      have hfilter : (x :: t).filter (fun y => y != x) = t.filter (fun y => y != x) := by
        simp [List.filter_cons]
      rw [hfilter]
      exact ih d hd hk
    · have hfilter : (x :: t).filter (fun y => y != k) = x :: t.filter (fun y => y != k) := by
        simp [List.filter_cons, hx]
      rw [hfilter, List.foldl_cons, List.foldl_cons]
      refine ih (analyzeStep text d x) (consistent_analyzeStep text d x hd) ?_
      rcases hk with h | h
      · exact Or.inl h
      · exact Or.inr (keys_mono_analyzeStep text d x k h)

theorem foldl_dedupFirst (text : Text) (kws : List Text) :
    ∀ d, consistent text d →
      List.foldl (analyzeStep text) d kws =
        List.foldl (analyzeStep text) d (dedupFirst kws) := by
  induction kws using dedupFirst.induct with
  | case1 => intro d _; rw [dedupFirst]
  | case2 k t ih =>
    intro d hd
    rw [List.foldl_cons]
    have hcond : pyCount text (pyLower k) = 0 ∨ k ∈ keys (analyzeStep text d k) := by
      by_cases hc : 0 < pyCount text (pyLower k)
      · exact Or.inr (self_mem_keys_analyzeStep text d k hc)
      · exact Or.inl (by omega)
    rw [foldl_filter_ne text k t (analyzeStep text d k)
        (consistent_analyzeStep text d k hd) hcond]
    rw [ih (analyzeStep text d k) (consistent_analyzeStep text d k hd)]
    rw [dedupFirst]
    rw [List.foldl_cons]

theorem lowerChar_idem (n : ℕ) : lowerChar (lowerChar n) = lowerChar n := by
  unfold lowerChar
  split_ifs <;> omega

theorem pyLower_idem (t : Text) : pyLower (pyLower t) = pyLower t := by
  unfold pyLower
  rw [List.map_map]
  exact List.map_congr_left fun a _ => lowerChar_idem a

theorem pyLower_length (t : Text) : (pyLower t).length = t.length :=
  List.length_map t lowerChar

theorem pyLower_eq_nil_iff (t : Text) : pyLower t = [] ↔ t = [] := by
  unfold pyLower
  exact List.map_eq_nil_iff

theorem countOccGo_pos_of_infix (sub : Text) (hne : sub ≠ []) :
    ∀ s : Text, sub <:+: s → 0 < countOccGo sub 0 s := by
  intro s
  induction s with
  | nil => intro h; exact absurd (List.infix_nil.mp h) hne
  | cons c t ih =>
    intro h
    by_cases hp : sub.isPrefixOf (c :: t)
    · simp only [countOccGo, if_pos hp]
      omega
    · simp only [countOccGo, if_neg hp]
      rcases List.infix_cons_iff.mp h with h' | h'
      · exact absurd (List.isPrefixOf_iff_prefix.mpr h') (by simpa using hp)
      · exact ih h'

theorem pyCount_pos_of_infix (s sub : Text) (h : sub <:+: s) : 0 < pyCount s sub := by
  unfold pyCount
  by_cases hne : sub = []
  · rw [if_pos hne]; omega
  · rw [if_neg hne]
    exact countOccGo_pos_of_infix sub hne s h

/-- Claim C1: for `w > 0`, `calculate_gen_z_score s w` equals `(s / w) * 200`
rounded to a nearest integer and clamped at 100; the result always lies in
`[0, 100]`; and `score 0 100 = 0`, `score 50 100 = 100`, `score 5 100 = 10`,
`score 25 100 = 50`. -/
theorem calculate_gen_z_score_spec :
    (∀ s w : ℕ, 0 < w →
      ∃ r : ℤ, |(r : ℚ) - ((s : ℚ) / (w : ℚ) * 200)| ≤ 1/2 ∧
        calculate_gen_z_score s w = min 100 r) ∧
    (∀ s w : ℕ, 0 ≤ calculate_gen_z_score s w ∧ calculate_gen_z_score s w ≤ 100) ∧
    calculate_gen_z_score 0 100 = 0 ∧ calculate_gen_z_score 50 100 = 100 ∧
    calculate_gen_z_score 5 100 = 10 ∧ calculate_gen_z_score 25 100 = 50 := by
  refine ⟨?_, ?_, ?_, ?_, ?_, ?_⟩
  · intro s w hw
    refine ⟨pyRound ((s : ℚ) / (w : ℚ) * 200), pyRound_nearest _, ?_⟩
    unfold calculate_gen_z_score
    rw [if_neg (Nat.pos_iff_ne_zero.mp hw)]
  · intro s w
    unfold calculate_gen_z_score
    split_ifs with h
    · norm_num
    · have hd : (0 : ℚ) ≤ (s : ℚ) / (w : ℚ) * 200 := by positivity
      exact ⟨le_min (by norm_num) (pyRound_nonneg _ hd), min_le_left _ _⟩
  all_goals norm_num [calculate_gen_z_score, pyRound]

/-- Witness for claim C1 at `s = 5`, `w = 100`. -/
theorem calculate_gen_z_score_spec_witness :
    ∃ r : ℤ, |(r : ℚ) - (((5 : ℕ) : ℚ) / ((100 : ℕ) : ℚ) * 200)| ≤ 1/2 ∧
      calculate_gen_z_score 5 100 = min 100 r :=
  calculate_gen_z_score_spec.1 5 100 (by norm_num)

/-- Claim C2: a record whose analysis raises (modelled `none`) leaves the
accumulator untouched — no word count, no slang count, no phrase-map change,
no processed-record increment — and all later records are still processed:
removing it from any position of the record stream does not change the fold. -/
theorem processRecord_skips_failures :
    (∀ kws (t : Totals), processRecord kws t none = t) ∧
    (∀ kws (pre post : List (Option Text)) (t : Totals),
      List.foldl (processRecord kws) t (pre ++ none :: post) =
        List.foldl (processRecord kws) t (pre ++ post)) ∧
    (∀ kws (pre post : List (Option Text)),
      analyze_subreddit_comments kws (pre ++ none :: post) =
        analyze_subreddit_comments kws (pre ++ post)) := by
  have h1 : ∀ kws (t : Totals), processRecord kws t none = t := fun _ _ => rfl
  have h2 : ∀ kws (pre post : List (Option Text)) (t : Totals),
      List.foldl (processRecord kws) t (pre ++ none :: post) =
        List.foldl (processRecord kws) t (pre ++ post) := by
    intro kws pre post t
    rw [List.foldl_append, List.foldl_append, List.foldl_cons, h1]
  exact ⟨h1, h2, fun kws pre post => h2 kws pre post initTotals⟩

/-- Claim C3 counterexample: in the bit-exact binary64 model of the code,
`score(1, 400)` returns 0, not 1, and `score(5, 400)` returns 2, not 3 (the
double products are exactly 0.5 and 2.5 and Python `round` is half-to-even). -/
theorem score_half_counterexample :
    calculate_gen_z_score_float 1 400 = 0 ∧ calculate_gen_z_score_float 1 400 ≠ 1 ∧
    calculate_gen_z_score_float 5 400 = 2 ∧ calculate_gen_z_score_float 5 400 ≠ 3 := by
  refine ⟨score_float_1_400, ?_, score_float_5_400, ?_⟩
  · rw [score_float_1_400]
    norm_num
  · rw [score_float_5_400]
    norm_num

/-- Claim C3 amended: the code does not round the reference half-densities
upward: at `(1, 400)` and `(5, 400)` the binary64 product is exactly the
half-integer (1/2 and 5/2), Python's `round` sends it to the even
neighbour, and the code returns 0 and 2. -/
theorem score_half_reference_inputs :
    fl (fl ((1 : ℚ)/400) * 200) = 1/2 ∧ calculate_gen_z_score_float 1 400 = 0 ∧
    fl (fl ((5 : ℚ)/400) * 200) = 5/2 ∧ calculate_gen_z_score_float 5 400 = 2 := by
  refine ⟨?_, score_float_1_400, ?_, score_float_5_400⟩
  · rw [fl_1_400]
    exact fl_1_400_x200
  · rw [fl_5_400]
    exact fl_5_400_x200

/-- Claim C4: every entry of an `analyze_comment` result has count at least 1
(no zero-count phrase is ever present) and its key belongs to the vocabulary. -/
theorem analyze_comment_pos_counts (kws : List Text) (text : Text) :
    ∀ p ∈ analyze_comment kws text, 1 ≤ p.2 ∧ p.1 ∈ kws := by
  intro p hp
  rcases mem_foldl_analyzeStep (pyLower text) kws [] p hp with h | h
  · exact absurd h (List.not_mem_nil p)
  · exact ⟨h.2.2, h.1⟩

/-- Witness for claim C4 at the entry `("aa", 1)` of
`analyze_comment ["aa"] "aaa"`. -/
theorem analyze_comment_pos_counts_witness :
    1 ≤ (codes "aa", 1).2 ∧ (codes "aa", 1).1 ∈ [codes "aa"] :=
  analyze_comment_pos_counts [codes "aa"] (codes "aaa") (codes "aa", 1) (by decide)

set_option maxRecDepth 1000000 in
/-- Claim C5: non-overlapping left-to-right counting:
`analyze_comment ["aa"] "aaa"` yields one occurrence of "aa" (not two), and
on the text "bruh bruh that's based" a vocabulary containing "bruh" and
"based" yields counts 2 and 1 — both for the two-phrase vocabulary and for
the shipped keyword list (whose result is the same mapping, as a
permutation in its insertion order). -/
theorem analyze_comment_examples :
    analyze_comment [codes "aa"] (codes "aaa") = [(codes "aa", 1)] ∧
    analyze_comment [codes "bruh", codes "based"] (codes "bruh bruh that\x27s based") =
      [(codes "bruh", 2), (codes "based", 1)] ∧
    (analyze_comment keywords (codes "bruh bruh that\x27s based")).Perm
      [(codes "bruh", 2), (codes "based", 1)] := by
  refine ⟨by decide, by decide, by decide⟩

/-- Claim C6: matching depends only on the lowercased text —
`analyze_comment kws text = analyze_comment kws (lower text)` — and a phrase
whose lowercase form occurs anywhere in the lowercased text (also inside a
larger word) is reported, with its occurrence count. -/
theorem analyze_comment_lower :
    (∀ kws text, analyze_comment kws text = analyze_comment kws (pyLower text)) ∧
    (∀ kws (text kw : Text), kw ∈ kws → pyLower kw <:+: pyLower text →
      (kw, pyCount (pyLower text) (pyLower kw)) ∈ analyze_comment kws text) := by
  constructor
  · intro kws text
    unfold analyze_comment
    rw [pyLower_idem]
  · intro kws text kw hmem hinf
    have hc : 0 < pyCount (pyLower text) (pyLower kw) :=
      pyCount_pos_of_infix _ _ hinf
    have hkeys : kw ∈ keys (analyze_comment kws text) :=
      mem_keys_foldl_of_mem (pyLower text) kws [] kw hmem hc
    exact consistent_mem_of_keys (pyLower text) _
      (consistent_foldl (pyLower text) kws [] (fun p hp => absurd hp (List.not_mem_nil p)))
      kw hkeys

/-- Witness for claim C6: the uppercase phrase "BRUH" is found inside
"a Bruhh!" case-insensitively and within a larger word. -/
theorem analyze_comment_lower_witness :
    (codes "BRUH", pyCount (pyLower (codes "a Bruhh!")) (pyLower (codes "BRUH")))
      ∈ analyze_comment [codes "BRUH"] (codes "a Bruhh!") :=
  analyze_comment_lower.2 [codes "BRUH"] (codes "a Bruhh!") (codes "BRUH")
    (by decide) (by decide)

/-- Claim C7: a zero-word corpus is a defined edge case:
`calculate_gen_z_score s 0 = 0` for every `s`, in particular
`score 0 0 = 0`. -/
theorem calculate_gen_z_score_zero_words :
    (∀ s : ℕ, calculate_gen_z_score s 0 = 0) ∧ calculate_gen_z_score 0 0 = 0 :=
  ⟨fun _ => rfl, rfl⟩

/-- Claim C8: for fixed `w > 0`, `calculate_gen_z_score` is monotone
non-decreasing in its first argument. -/
theorem calculate_gen_z_score_mono (w s1 s2 : ℕ) (hw : 0 < w) (hs : s1 ≤ s2) :
    calculate_gen_z_score s1 w ≤ calculate_gen_z_score s2 w := by
  unfold calculate_gen_z_score
  rw [if_neg (Nat.pos_iff_ne_zero.mp hw), if_neg (Nat.pos_iff_ne_zero.mp hw)]
  refine min_le_min le_rfl (pyRound_mono ?_)
  gcongr

/-- Witness for claim C8 at `w = 100`, `s1 = 5`, `s2 = 50`. -/
theorem calculate_gen_z_score_mono_witness :
    calculate_gen_z_score 5 100 ≤ calculate_gen_z_score 50 100 :=
  calculate_gen_z_score_mono 100 5 50 (by norm_num) (by norm_num)

set_option maxRecDepth 1000000 in
/-- Claim C9: duplicate vocabulary entries do not inflate results: the result
equals the result on the vocabulary with later duplicates removed, the
result's keys are always free of duplicates, and the shipped keyword list
indeed repeats "deadass", "hits" and "on god" (each appearing twice). -/
theorem analyze_comment_dedup :
    (∀ kws text, analyze_comment kws text = analyze_comment (dedupFirst kws) text) ∧
    (∀ kws text, ((analyze_comment kws text).map Prod.fst).Nodup) ∧
    List.count (codes "deadass") keywords = 2 ∧
    List.count (codes "hits") keywords = 2 ∧
    List.count (codes "on god") keywords = 2 := by
  refine ⟨?_, ?_, by decide, by decide, by decide⟩
  · intro kws text
    unfold analyze_comment
    exact foldl_dedupFirst (pyLower text) kws []
      (fun p hp => absurd hp (List.not_mem_nil p))
  · intro kws text
    exact nodup_keys_foldl (pyLower text) kws [] List.nodup_nil

/-- Claim C10: on an all-non-empty vocabulary the empty text yields the empty
mapping; a vocabulary containing the empty phrase reports it on every text
with count `length + 1`, the substring count of the empty needle. -/
theorem analyze_comment_empty :
    (∀ kws, (∀ k ∈ kws, k ≠ []) → analyze_comment kws [] = []) ∧
    (∀ kws (text : Text), [] ∈ kws →
      ([], text.length + 1) ∈ analyze_comment kws text) ∧
    (∀ text : Text, pyCount text [] = text.length + 1) := by
  refine ⟨?_, ?_, fun text => rfl⟩
  · intro kws hk
    unfold analyze_comment
    have hgen : ∀ (ks : List Text), (∀ k ∈ ks, k ≠ []) →
        List.foldl (analyzeStep (pyLower [])) [] ks = [] := by
      intro ks
      induction ks with
      | nil => intro _; rfl
      | cons x t ih =>
        intro h
        rw [List.foldl_cons]
        have hx : analyzeStep (pyLower []) [] x = [] := by
          unfold analyzeStep
          rw [if_neg]
          intro hc
          have hxe : pyLower x ≠ [] :=
            fun he => (h x (List.mem_cons_self x t)) ((pyLower_eq_nil_iff x).mp he)
          unfold pyCount at hc
          rw [if_neg hxe] at hc
          cases hlx : pyLower x with
          | nil => exact hxe hlx
          | cons a b =>
            rw [hlx] at hc
            simp [countOccGo] at hc
        rw [hx]
        exact ih (fun k hk2 => h k (List.mem_cons_of_mem x hk2))
    exact hgen kws hk
  · intro kws text hmem
    have hc : 0 < pyCount (pyLower text) (pyLower ([] : Text)) := by
      show 0 < pyCount (pyLower text) []
      unfold pyCount
      rw [if_pos rfl]
      omega
    have hkeys := mem_keys_foldl_of_mem (pyLower text) kws [] [] hmem hc
    have hfull := consistent_mem_of_keys (pyLower text) _
      (consistent_foldl (pyLower text) kws [] (fun p hp => absurd hp (List.not_mem_nil p)))
      [] hkeys
    have heq : pyCount (pyLower text) (pyLower ([] : Text)) = text.length + 1 := by
      show pyCount (pyLower text) [] = text.length + 1
      unfold pyCount
      rw [if_pos rfl, pyLower_length]
    rw [heq] at hfull
    exact hfull

/-- Witness for claim C10: empty text with a non-empty vocabulary gives the
empty mapping, and the empty phrase is reported on "ab" with count 3. -/
theorem analyze_comment_empty_witness :
    analyze_comment [codes "aa"] [] = [] ∧
    ([], (codes "ab").length + 1) ∈ analyze_comment [[]] (codes "ab") :=
  ⟨analyze_comment_empty.1 [codes "aa"] (by decide),
   analyze_comment_empty.2.1 [[]] (codes "ab") (by decide)⟩

end RedditSlang
